import Mathlib

/-
A shallow embedding of the range-list parser and extractor of the cut
utility (src/cutr/src/lib.rs).

Strings are modelled as lists of characters, Rust usize as Nat bounded by
USIZEMAX, and the nom parser combinators (decimal, range_input,
separated_list0) as explicit functions from character lists to an optional
pair of recognized prefix and remaining input.  The greedy many1/many0
loops of nom are given explicit fuel equal to the input length; every
iteration consumes at least one character so the fuel never runs out.
-/

/-- Rust usize::MAX on a 64-bit target; parsed_to_range uses it as the
sentinel upper bound of an open-ended range (lib.rs line 158). -/
def USIZEMAX : Nat := 2 ^ 64 - 1

/-- Half-open 0-based index range, modelling Rust Range<usize>. -/
structure NRange where
  start : Nat
  stop : Nat
deriving DecidableEq, Repr

/-- Rust Range::contains for Range<usize>: start <= i < stop. -/
def rangeContains (cp : NRange) (i : Nat) : Prop := cp.start ≤ i ∧ i < cp.stop

instance (cp : NRange) (i : Nat) : Decidable (rangeContains cp i) := by
  unfold rangeContains; infer_instance

/-- The character class of nom's one_of "0123456789" (lib.rs line 207). -/
def isDigitChar (c : Char) : Prop := 48 ≤ c.toNat ∧ c.toNat ≤ 57

instance (c : Char) : Decidable (isDigitChar c) := by
  unfold isDigitChar; infer_instance

/-- many0 of the underscore character: consume the maximal run of leading
underscores (part of decimal, lib.rs line 207). -/
def takeUnderscores : List Char → List Char × List Char
  | [] => ([], [])
  | c :: rest =>
    if c = '_' then
      ('_' :: (takeUnderscores rest).1, (takeUnderscores rest).2)
    else ([], c :: rest)

/-- The greedy loop of many1(terminated(one_of digits, many0 underscore)):
repeatedly consume one digit and then any run of underscores; stop when the
next character is not a digit.  Fuel-indexed; every iteration consumes at
least one character. -/
def decimalLoopF : Nat → List Char → List Char × List Char
  | 0, l => ([], l)
  | _ + 1, [] => ([], [])
  | fuel + 1, c :: rest =>
    if isDigitChar c then
      (c :: ((takeUnderscores rest).1 ++ (decimalLoopF fuel (takeUnderscores rest).2).1),
        (decimalLoopF fuel (takeUnderscores rest).2).2)
    else ([], c :: rest)

/-- nom decimal = recognize(many1(terminated(one_of "0123456789",
many0(char underscore)))) (lib.rs lines 206-208).  Returns the recognized
prefix and the rest, or none when no digit leads the input (many1 needs at
least one item). -/
def decimal (l : List Char) : Option (List Char × List Char) :=
  match decimalLoopF l.length l with
  | ([], _) => none
  | (m, r) => some (m, r)

/-- Sequencing of two recognizing sub-parsers: recognize(tuple(p, q)). -/
def pSeq (p q : List Char → Option (List Char × List Char))
    (l : List Char) : Option (List Char × List Char) :=
  match p l with
  | some mr =>
    match q mr.2 with
    | some mr2 => some (mr.1 ++ mr2.1, mr2.2)
    | none => none
  | none => none

/-- nom alt: try p, fall back to q on (recoverable) failure. -/
def pAlt (p q : List Char → Option (List Char × List Char))
    (l : List Char) : Option (List Char × List Char) :=
  match p l with
  | some mr => some mr
  | none => q l

/-- nom char applied to the dash character. -/
def pDash : List Char → Option (List Char × List Char)
  | [] => none
  | c :: rest => if c = '-' then some (['-'], rest) else none

/-- range_input (lib.rs lines 194-205): alt of recognize(decimal - decimal),
recognize(decimal -), recognize(- decimal), recognize(decimal), in that
order. -/
def range_input : List Char → Option (List Char × List Char) :=
  pAlt (pSeq decimal (pSeq pDash decimal))
    (pAlt (pSeq decimal pDash) (pAlt (pSeq pDash decimal) decimal))

/-- The iteration of nom separated_list0(tag comma, range_input) after the
first item: repeatedly consume a comma and one item; when the item fails
after a comma, backtrack to before the comma and stop.  Fuel-indexed. -/
def sepLoopF : Nat → List Char → List Char × List (List Char)
  | 0, l => (l, [])
  | fuel + 1, l =>
    match l with
    | ',' :: rest =>
      match range_input rest with
      | some mr =>
        ((sepLoopF fuel mr.2).1, mr.1 :: (sepLoopF fuel mr.2).2)
      | none => (l, [])
    | _ => (l, [])

/-- separated_list0(tag comma, range_input) (lib.rs line 144): zero or more
range_input tokens separated by commas; returns (rest, tokens). -/
def sepList (l : List Char) : List Char × List (List Char) :=
  match range_input l with
  | none => (l, [])
  | some mr =>
    ((sepLoopF mr.2.length mr.2).1, mr.1 :: (sepLoopF mr.2.length mr.2).2)

/-- Value of a digit string, most significant digit first (the accumulation
of Rust's from_str digit loop, without the intermediate overflow stops:
the accumulator is monotone, so overflow at any step is the same as the
final value exceeding the maximum). -/
def digitsVal (l : List Char) : Nat :=
  l.foldl (fun acc c => acc * 10 + (c.toNat - 48)) 0

/-- The digit phase of Rust usize::from_str: at least one ASCII digit, no
other characters (underscores are NOT accepted here), overflow-checked
against usize::MAX; a negative sign admits only the value zero. -/
def rustParseDigits (ds : List Char) (neg : Bool) : Option Nat :=
  if ds = [] then none
  else if ds.all (fun c => decide (isDigitChar c)) then
    let v := digitsVal ds
    if v ≤ USIZEMAX then
      (if neg then (if v = 0 then some 0 else none) else some v)
    else none
  else none

/-- Rust usize::from_str (used through NonZeroUsize::from_str in lib.rs
line 176): an optional leading sign followed by ASCII digits. -/
def rustParseUsize (l : List Char) : Option Nat :=
  match l with
  | c :: _ =>
    if c = '+' then rustParseDigits l.tail false
    else if c = '-' then rustParseDigits l.tail true
    else rustParseDigits l false
  | [] => none

/-- format_val_err (lib.rs lines 189-191). -/
def format_val_err (v : String) : String :=
  "illegal list value: \"" ++ v ++ "\""

/-- format_range_err (lib.rs lines 181-186). -/
def format_range_err (f t : Nat) : String :=
  "First number in range (" ++ toString f ++
    ") must be lower than second number (" ++ toString t ++ ")"

/-- parse (lib.rs lines 175-180): input.parse::<NonZeroUsize>(), so zero
and any malformed number map to format_val_err of the input. -/
def parse (l : List Char) : Except String Nat :=
  match rustParseUsize l with
  | some v =>
    if v = 0 then Except.error (format_val_err (String.mk l))
    else Except.ok v
  | none => Except.error (format_val_err (String.mk l))

/-- Rust str::split applied to the dash character: the list of fragments
between dashes, keeping empty fragments. -/
def splitDash : List Char → List (List Char)
  | [] => [[]]
  | c :: rest =>
    if c = '-' then [] :: splitDash rest
    else
      match splitDash rest with
      | t :: ts => (c :: t) :: ts
      | [] => [[c]]

/-- The match of parsed_to_range (lib.rs lines 155-174) on the fragments of
split( dash ), in source order: leading-empty, trailing-empty, single,
two-sided, catch-all. -/
def rangeFromParts (t : List Char) : List (List Char) → Except String NRange
  | [[], hi] =>
    match parse hi with
    | Except.ok v => Except.ok ⟨0, v⟩
    | Except.error e => Except.error e
  | [lo, []] =>
    match parse lo with
    | Except.ok v => Except.ok ⟨v - 1, USIZEMAX⟩
    | Except.error e => Except.error e
  | [single] =>
    match parse single with
    | Except.ok v => Except.ok ⟨v - 1, v⟩
    | Except.error e => Except.error e
  | [lo, hi] =>
    match parse lo with
    | Except.error e => Except.error e
    | Except.ok vl =>
      match parse hi with
      | Except.error e => Except.error e
      | Except.ok vh =>
        if vl > vh then Except.error (format_range_err vl vh)
        else Except.ok ⟨vl - 1, vh⟩
  | _ => Except.error (format_val_err (String.mk t))

/-- parsed_to_range (lib.rs lines 155-174). -/
def parsed_to_range (t : List Char) : Except String NRange :=
  rangeFromParts t (splitDash t)

/-- The discrimination of parse_position (lib.rs lines 143-154) on the
tokenizer result: empty rest means map every token through
parsed_to_range, collecting at the first error; a non-empty rest is an
illegal-list-value error carrying the rest. -/
def afterTokenize : List Char × List (List Char) → Except String (List NRange)
  | ([], toks) => toks.mapM parsed_to_range
  | (rest, _) => Except.error (format_val_err (String.mk rest))

/-- parse_position (lib.rs lines 143-154). -/
def parse_position (s : String) : Except String (List NRange) :=
  afterTokenize (sepList s.data)

deriving instance DecidableEq for Except

/-
Extraction (lib.rs lines 93-125).  All three extractors loop over the
configured ranges and, inside each range, over the enumerated units of the
line, pushing a unit exactly when its index lies in the range.  selectFrom
renders one enumerate-filter pass starting at a given index.
-/

/-- One pass of line.units().enumerate() pushing units whose index the
range contains, starting the enumeration at index i. -/
def selectFrom {α : Type} (cp : NRange) : Nat → List α → List α
  | _, [] => []
  | i, c :: rest =>
    if rangeContains cp i then c :: selectFrom cp (i + 1) rest
    else selectFrom cp (i + 1) rest

/-- The enumerate-filter pass from index 0. -/
def selectIdx {α : Type} (cp : NRange) (l : List α) : List α :=
  selectFrom cp 0 l

/-- UTF-8 encoding of one Unicode scalar value, as a list of byte
values. -/
def utf8EncodeChar (c : Char) : List Nat :=
  let n := c.toNat
  if n < 0x80 then [n]
  else if n < 0x800 then [0xC0 + n / 64, 0x80 + n % 64]
  else if n < 0x10000 then
    [0xE0 + n / 4096, 0x80 + (n / 64) % 64, 0x80 + n % 64]
  else
    [0xF0 + n / 262144, 0x80 + (n / 4096) % 64, 0x80 + (n / 64) % 64,
      0x80 + n % 64]

/-- line.bytes(): the UTF-8 byte sequence of a string. -/
def stringBytes (s : String) : List Nat :=
  (s.data.map utf8EncodeChar).flatten

/-- The Unicode replacement character produced by lossy decoding. -/
def replacementChar : Char := Char.ofNat 0xFFFD

/-- A UTF-8 continuation byte. -/
def isCont (b : Nat) : Prop := 0x80 ≤ b ∧ b ≤ 0xBF

instance (b : Nat) : Decidable (isCont b) := by
  unfold isCont; infer_instance

/-- String::from_utf8_lossy: decode UTF-8, replacing each maximal subpart
of an ill-formed subsequence with one replacement character (the policy
Rust implements).  Fuel-indexed; every step consumes at least one byte. -/
def lossyF : Nat → List Nat → List Char
  | 0, _ => []
  | _ + 1, [] => []
  | fuel + 1, b :: bs =>
    if b < 0x80 then Char.ofNat b :: lossyF fuel bs
    else if b < 0xC2 then replacementChar :: lossyF fuel bs
    else if b ≤ 0xDF then
      match bs with
      | c :: bs2 =>
        if isCont c then
          Char.ofNat ((b - 0xC0) * 64 + (c - 0x80)) :: lossyF fuel bs2
        else replacementChar :: lossyF fuel bs
      | [] => [replacementChar]
    else if b ≤ 0xEF then
      let lo2 := if b = 0xE0 then 0xA0 else 0x80
      let hi2 := if b = 0xED then 0x9F else 0xBF
      match bs with
      | c :: bs2 =>
        if lo2 ≤ c ∧ c ≤ hi2 then
          match bs2 with
          | d :: bs3 =>
            if isCont d then
              Char.ofNat ((b - 0xE0) * 4096 + (c - 0x80) * 64 + (d - 0x80))
                :: lossyF fuel bs3
            else replacementChar :: lossyF fuel bs2
          | [] => [replacementChar]
        else replacementChar :: lossyF fuel bs
      | [] => [replacementChar]
    else if b ≤ 0xF4 then
      let lo2 := if b = 0xF0 then 0x90 else 0x80
      let hi2 := if b = 0xF4 then 0x8F else 0xBF
      match bs with
      | c :: bs2 =>
        if lo2 ≤ c ∧ c ≤ hi2 then
          match bs2 with
          | d :: bs3 =>
            if isCont d then
              match bs3 with
              | e :: bs4 =>
                if isCont e then
                  Char.ofNat ((b - 0xF0) * 262144 + (c - 0x80) * 4096 +
                    (d - 0x80) * 64 + (e - 0x80)) :: lossyF fuel bs4
                else replacementChar :: lossyF fuel bs3
              | [] => [replacementChar]
            else replacementChar :: lossyF fuel bs2
          | [] => [replacementChar]
        else replacementChar :: lossyF fuel bs
      | [] => [replacementChar]
    else replacementChar :: lossyF fuel bs

/-- String::from_utf8_lossy on a byte list. -/
def utf8LossyDecode (bs : List Nat) : List Char :=
  lossyF bs.length bs

/-- extract_bytes (lib.rs lines 93-103): per range, push the bytes whose
index the range contains, then decode the buffer lossily. -/
def extract_bytes (line : String) (ps : List NRange) : String :=
  String.mk (utf8LossyDecode ((ps.map fun cp => selectIdx cp (stringBytes line)).flatten))

/-- extract_chars (lib.rs lines 104-114): per range, push the decoded
characters whose index the range contains. -/
def extract_chars (line : String) (ps : List NRange) : String :=
  String.mk ((ps.map fun cp => selectIdx cp line.data).flatten)

/-- extract_fields (lib.rs lines 115-125): per range, push the fields of
the record whose index the range contains. -/
def extract_fields (record : List String) (ps : List NRange) : List String :=
  (ps.map fun cp => selectIdx cp record).flatten

/-
The file loop of run (lib.rs lines 52-92), for the two line-oriented
modes, parameterised by the per-line rendering (extract_bytes or
extract_chars applied to the configured PositionList).  A line read either
yields a line or an I/O error; opening a file either fails or yields the
line reads.  The outcome of a run is the stdout lines, the stderr lines,
and the error with which run aborted, if any.
-/

/-- One line read from a BufRead: io::Result<String>. -/
inductive ReadLine where
  | ok (s : String)
  | err (e : String)
deriving DecidableEq, Repr

/-- The outcome of open(filename): an open error, or the sequence of line
reads the file will yield. -/
inductive FileOutcome where
  | missing (e : String)
  | content (lines : List ReadLine)
deriving DecidableEq, Repr

/-- The inner loop for line in file.lines() with println of ext(line):
the question-mark operator on a failed read aborts with that error,
leaving later lines unprocessed (lib.rs lines 66-73). -/
def processLines (ext : String → String) : List ReadLine → List String × Option String
  | [] => ([], none)
  | ReadLine.ok s :: rest =>
    (ext s :: (processLines ext rest).1, (processLines ext rest).2)
  | ReadLine.err e :: _ => ([], some e)

/-- The file loop of run (lib.rs lines 60-90): an open failure prints
name-colon-error to stderr and continues with the next file; an abort
inside a file ends the whole run. -/
def runWith (fs : String → FileOutcome) (ext : String → String) :
    List String → List String × List String × Option String
  | [] => ([], [], none)
  | f :: rest =>
    match fs f with
    | FileOutcome.missing e =>
      ((runWith fs ext rest).1, (f ++ ": " ++ e) :: (runWith fs ext rest).2.1,
        (runWith fs ext rest).2.2)
    | FileOutcome.content lines =>
      match (processLines ext lines).2 with
      | some e => ((processLines ext lines).1, [], some e)
      | none =>
        ((processLines ext lines).1 ++ (runWith fs ext rest).1,
          (runWith fs ext rest).2.1, (runWith fs ext rest).2.2)

/-- All characters of a (nonempty) numeric component are digits. -/
def pureDigits (l : List Char) : Prop := l ≠ [] ∧ ∀ c ∈ l, isDigitChar c

instance (l : List Char) : Decidable (pureDigits l) := by
  unfold pureDigits; infer_instance

/-- A line read that did not fail. -/
def isOkLine : ReadLine → Prop
  | ReadLine.ok _ => True
  | ReadLine.err _ => False

instance (l : ReadLine) : Decidable (isOkLine l) := by
  cases l <;> unfold isOkLine <;> infer_instance

/-- A file outcome that involves no read error: an open failure, or
content whose reads all succeed. -/
def noReadErr : FileOutcome → Prop
  | FileOutcome.missing _ => True
  | FileOutcome.content ls => ∀ l ∈ ls, isOkLine l

instance (o : FileOutcome) : Decidable (noReadErr o) := by
  cases o <;> unfold noReadErr <;> infer_instance

/-- The stdout lines one file contributes when its processing runs to
completion. -/
def fileStdout (ext : String → String) : FileOutcome → List String
  | FileOutcome.missing _ => []
  | FileOutcome.content lines => (processLines ext lines).1

/-- The stderr lines one file contributes: exactly the open failures. -/
def fileStderr (f : String) : FileOutcome → List String
  | FileOutcome.missing e => [f ++ ": " ++ e]
  | FileOutcome.content _ => []

/-- A demonstration file system: the first file yields one good line and
then a read error; the second file yields one good line. -/
def fsDemo : String → FileOutcome := fun f =>
  if f = r"f1" then FileOutcome.content [ReadLine.ok (r"a"), ReadLine.err (r"boom")]
  else FileOutcome.content [ReadLine.ok (r"b")]

/-
Lemmas about the enumerate-filter pass: it is equivalent to drop-then-take,
so indices beyond the end of the list select nothing.
-/

theorem rangeContains_shift (s e i : Nat) :
    rangeContains ⟨s, e⟩ (i + 1) ↔ rangeContains ⟨s - 1, e - 1⟩ i := by
  simp only [rangeContains]
  omega

theorem selectFrom_shift {α : Type} (l : List α) (s e i : Nat) :
    selectFrom ⟨s, e⟩ (i + 1) l = selectFrom ⟨s - 1, e - 1⟩ i l := by
  induction l generalizing i with
  | nil => rfl
  | cons c rest ih =>
    unfold selectFrom
    by_cases h : rangeContains ⟨s, e⟩ (i + 1)
    · rw [if_pos h, if_pos ((rangeContains_shift s e i).mp h), ih]
    · rw [if_neg h, if_neg (fun hc => h ((rangeContains_shift s e i).mpr hc)), ih]

theorem selectFrom_stop_le {α : Type} (l : List α) (cp : NRange) (i : Nat)
    (h : cp.stop ≤ i) : selectFrom cp i l = [] := by
  induction l generalizing i with
  | nil => rfl
  | cons c rest ih =>
    unfold selectFrom
    rw [if_neg, ih (i + 1) (by omega)]
    intro hc
    exact absurd hc.2 (by omega)

theorem selectIdx_eq_drop_take {α : Type} (l : List α) (s e : Nat) :
    selectIdx ⟨s, e⟩ l = (l.drop s).take (e - s) := by
  unfold selectIdx
  induction l generalizing s e with
  | nil => simp [selectFrom]
  | cons c rest ih =>
    cases s with
    | zero =>
      cases e with
      | zero =>
        unfold selectFrom
        rw [if_neg (by simp [rangeContains])]
        rw [selectFrom_stop_le rest ⟨0, 0⟩ 1 (Nat.zero_le 1)]
        simp
      | succ e' =>
        unfold selectFrom
        rw [if_pos (by simp [rangeContains]), selectFrom_shift]
        simp only [Nat.zero_sub, Nat.add_sub_cancel]
        rw [ih 0 e']
        simp
    | succ s' =>
      unfold selectFrom
      rw [if_neg (by simp [rangeContains]), selectFrom_shift]
      simp only [Nat.add_sub_cancel]
      rw [ih s' (e - 1)]
      have harith : e - 1 - s' = e - (s' + 1) := by omega
      rw [harith]
      simp

theorem take_of_len_le {α : Type} (l : List α) (n : Nat)
    (h : l.length ≤ n) : l.take n = l := by
  induction l generalizing n with
  | nil => simp
  | cons c rest ih =>
    cases n with
    | zero => simp at h
    | succ n' => simpa using ih n' (by simpa using h)

/-- Clipping the upper end of a range at the list length does not change
the selection: indices past the end contribute nothing. -/
theorem selectIdx_clip {α : Type} (l : List α) (s e : Nat) :
    selectIdx ⟨s, e⟩ l = selectIdx ⟨s, min e l.length⟩ l := by
  rw [selectIdx_eq_drop_take, selectIdx_eq_drop_take]
  by_cases h : e ≤ l.length
  · rw [Nat.min_eq_left h]
  · rw [Nat.min_eq_right (by omega)]
    rw [take_of_len_le _ _ (by simp only [List.length_drop]; omega),
      take_of_len_le _ _ (by simp only [List.length_drop]; omega)]

/-- A range starting at or past the end of the list selects nothing. -/
theorem selectIdx_past_end {α : Type} (l : List α) (s e : Nat)
    (h : l.length ≤ s) : selectIdx ⟨s, e⟩ l = [] := by
  rw [selectIdx_eq_drop_take, List.drop_eq_nil_of_le h, List.take_nil]

/-
Lemmas about the tokenizer on digit strings.
-/

theorem takeUnderscores_append (us l : List Char)
    (h2 : ∀ c, l.head? = some c → c ≠ '_') :
    (∀ c ∈ us, c = '_') → takeUnderscores (us ++ l) = (us, l) := by
  induction us with
  | nil =>
    intro _
    cases l with
    | nil => rfl
    | cons c r =>
      simp only [List.nil_append]
      unfold takeUnderscores
      rw [if_neg (h2 c rfl)]
  | cons c us' ih =>
    intro h1
    have hc : c = '_' := h1 c (by simp)
    subst hc
    have ih' := ih (fun x hx => h1 x (by simp [hx]))
    simp only [List.cons_append]
    unfold takeUnderscores
    rw [if_pos rfl, ih']

theorem takeUnderscores_decomp (l : List Char) :
    ∃ us r, takeUnderscores l = (us, r) ∧ l = us ++ r ∧
      (∀ c ∈ us, c = '_') ∧ (∀ c, r.head? = some c → c ≠ '_') := by
  induction l with
  | nil => exact ⟨[], [], rfl, rfl, by simp, by simp⟩
  | cons c rest ih =>
    obtain ⟨us, r, hTU, hdec, hus, hr⟩ := ih
    by_cases hc : c = '_'
    · subst hc
      refine ⟨'_' :: us, r, ?_, by simp [hdec], ?_, hr⟩
      · unfold takeUnderscores
        rw [if_pos rfl, hTU]
      · intro x hx
        simp only [List.mem_cons] at hx
        rcases hx with hx | hx
        · exact hx
        · exact hus x hx
    · refine ⟨[], c :: rest, ?_, by simp, by simp, ?_⟩
      · unfold takeUnderscores
        rw [if_neg hc]
      · intro x hx
        simp only [List.head?_cons, Option.some.injEq] at hx
        subst hx
        exact hc

theorem decimalLoopF_nondigit (f : Nat) (l : List Char)
    (h : ∀ c, l.head? = some c → ¬ isDigitChar c) :
    decimalLoopF f l = ([], l) := by
  cases f with
  | zero => rfl
  | succ f' =>
    cases l with
    | nil => rfl
    | cons c rest =>
      unfold decimalLoopF
      rw [if_neg (h c rfl)]

theorem decimalLoopF_mixed (fuel : Nat) : ∀ (ds r : List Char),
    ds.length ≤ fuel → ds ≠ [] →
    (∀ c, ds.head? = some c → isDigitChar c) →
    (∀ c ∈ ds, isDigitChar c ∨ c = '_') →
    (∀ c, r.head? = some c → ¬ isDigitChar c ∧ c ≠ '_') →
    decimalLoopF fuel (ds ++ r) = (ds, r) := by
  induction fuel with
  | zero =>
    intro ds r h1 h2 _ _ _
    cases ds with
    | nil => exact absurd rfl h2
    | cons c ds' => simp at h1
  | succ fuel ih =>
    intro ds r h1 h2 hhead hmix hr
    obtain ⟨c, ds', rfl⟩ : ∃ c ds', ds = c :: ds' := by
      cases ds with
      | nil => exact absurd rfl h2
      | cons a b => exact ⟨a, b, rfl⟩
    have hc : isDigitChar c := hhead c rfl
    obtain ⟨us, ds2, hTU0, hdec, hus, hrest⟩ := takeUnderscores_decomp ds'
    have hTU : takeUnderscores (ds' ++ r) = (us, ds2 ++ r) := by
      rw [hdec, List.append_assoc]
      refine takeUnderscores_append us (ds2 ++ r) ?_ hus
      intro x hx
      cases ds2 with
      | nil => exact (hr x (by simpa using hx)).2
      | cons d ds2' =>
        simp only [List.cons_append, List.head?_cons, Option.some.injEq] at hx
        subst hx
        exact hrest d rfl
    simp only [List.cons_append]
    unfold decimalLoopF
    rw [if_pos hc, hTU]
    cases ds2 with
    | nil =>
      rw [decimalLoopF_nondigit fuel ([] ++ r)
        (fun x hx => (hr x (by simpa using hx)).1)]
      simp [hdec]
    | cons d ds2' =>
      have hd : isDigitChar d := by
        have hmem : d ∈ ds' := by rw [hdec]; simp
        rcases hmix d (by simp [hmem]) with h | h
        · exact h
        · exact absurd h (hrest d rfl)
      rw [ih (d :: ds2') r ?_ (by simp) ?_ ?_ hr]
      · simp [hdec]
      · have : ds'.length ≤ fuel := by simpa using h1
        rw [hdec] at this
        simp at this ⊢
        omega
      · intro x hx
        simp only [List.head?_cons, Option.some.injEq] at hx
        subst hx
        exact hd
      · intro x hx
        refine hmix x ?_
        rw [hdec]
        simp only [List.mem_cons]
        right
        rw [List.mem_append]
        right
        exact hx

theorem decimal_eq (ds r : List Char) (h2 : ds ≠ [])
    (hhead : ∀ c, ds.head? = some c → isDigitChar c)
    (hmix : ∀ c ∈ ds, isDigitChar c ∨ c = '_')
    (hr : ∀ c, r.head? = some c → ¬ isDigitChar c ∧ c ≠ '_') :
    decimal (ds ++ r) = some (ds, r) := by
  unfold decimal
  rw [decimalLoopF_mixed (ds ++ r).length ds r (by simp) h2 hhead hmix hr]
  obtain ⟨c, ds', rfl⟩ : ∃ c ds', ds = c :: ds' := by
    cases ds with
    | nil => exact absurd rfl h2
    | cons a b => exact ⟨a, b, rfl⟩
  rfl

theorem decimal_none (l : List Char)
    (h : ∀ c, l.head? = some c → ¬ isDigitChar c) : decimal l = none := by
  unfold decimal
  rw [decimalLoopF_nondigit l.length l h]

theorem digit_not_special (c : Char) (h : isDigitChar c) :
    c ≠ '-' ∧ c ≠ '+' ∧ c ≠ ',' ∧ c ≠ '_' := by
  refine ⟨?_, ?_, ?_, ?_⟩ <;> rintro rfl <;> revert h <;> decide

theorem head_digit_of_pure (ds : List Char) (h : pureDigits ds) :
    ∀ c, ds.head? = some c → isDigitChar c := by
  intro c hc
  cases ds with
  | nil => simp at hc
  | cons a t =>
    simp only [List.head?_cons, Option.some.injEq] at hc
    subst hc
    exact h.2 a (by simp)

theorem pure_decimal (ds : List Char) (h : pureDigits ds) :
    decimal ds = some (ds, []) := by
  have := decimal_eq ds [] h.1 (head_digit_of_pure ds h)
    (fun c hc => Or.inl (h.2 c hc)) (by simp)
  simpa using this

theorem pDash_nil : pDash [] = none := rfl

theorem pDash_dash (rest : List Char) : pDash ('-' :: rest) = some (['-'], rest) := by
  show (if ('-' : Char) = '-' then some (['-'], rest) else none) = some (['-'], rest)
  rw [if_pos rfl]

theorem pDash_not_dash (c : Char) (rest : List Char) (h : c ≠ '-') :
    pDash (c :: rest) = none := by
  show (if c = '-' then some (['-'], rest) else none) = none
  rw [if_neg h]

theorem dash_head_block (ds : List Char) :
    ∀ c, (('-' :: ds) : List Char).head? = some c → ¬ isDigitChar c ∧ c ≠ '_' := by
  intro c hc
  simp only [List.head?_cons, Option.some.injEq] at hc
  subst hc
  exact ⟨by decide, by decide⟩

theorem range_input_pure (ds : List Char) (h : pureDigits ds) :
    range_input ds = some (ds, []) := by
  obtain ⟨c, t, rfl⟩ : ∃ c t, ds = c :: t := by
    cases ds with
    | nil => exact absurd rfl h.1
    | cons a b => exact ⟨a, b, rfl⟩
  have hc : isDigitChar c := h.2 c (by simp)
  have hD : decimal (c :: t) = some (c :: t, []) := pure_decimal _ h
  have hdash : pDash (c :: t) = none := pDash_not_dash c t (digit_not_special c hc).1
  unfold range_input
  simp [pAlt, pSeq, hD, hdash, pDash_nil]

theorem range_input_two (ds1 ds2 : List Char) (h1 : pureDigits ds1)
    (h2 : pureDigits ds2) :
    range_input (ds1 ++ '-' :: ds2) = some (ds1 ++ '-' :: ds2, []) := by
  have hD1 : decimal (ds1 ++ '-' :: ds2) = some (ds1, '-' :: ds2) :=
    decimal_eq ds1 ('-' :: ds2) h1.1 (head_digit_of_pure ds1 h1)
      (fun c hc => Or.inl (h1.2 c hc)) (dash_head_block ds2)
  have hD2 : decimal ds2 = some (ds2, []) := pure_decimal ds2 h2
  unfold range_input
  simp [pAlt, pSeq, hD1, hD2, pDash_dash]

theorem range_input_leading (ds : List Char) (h : pureDigits ds) :
    range_input ('-' :: ds) = some ('-' :: ds, []) := by
  have hD : decimal ('-' :: ds) = none :=
    decimal_none _ (fun c hc => (dash_head_block ds c hc).1)
  have hD2 : decimal ds = some (ds, []) := pure_decimal ds h
  unfold range_input
  simp [pAlt, pSeq, hD, hD2, pDash_dash]

theorem range_input_trailing (ds : List Char) (h : pureDigits ds) :
    range_input (ds ++ ['-']) = some (ds ++ ['-'], []) := by
  have hD1 : decimal (ds ++ ['-']) = some (ds, ['-']) :=
    decimal_eq ds ['-'] h.1 (head_digit_of_pure ds h)
      (fun c hc => Or.inl (h.2 c hc)) (dash_head_block [])
  have hnil : decimal ([] : List Char) = none := rfl
  unfold range_input
  simp [pAlt, pSeq, hD1, hnil, pDash_dash]

theorem sepList_single (l : List Char) (h : range_input l = some (l, [])) :
    sepList l = ([], [l]) := by
  unfold sepList
  rw [h]
  rfl

theorem splitDash_nodash (l : List Char) (h : '-' ∉ l) : splitDash l = [l] := by
  induction l with
  | nil => rfl
  | cons c rest ih =>
    have hc : c ≠ '-' := fun hh => h (by simp [hh])
    unfold splitDash
    rw [if_neg hc, ih (fun hm => h (by simp [hm]))]

theorem splitDash_two (ds1 ds2 : List Char) (h1 : '-' ∉ ds1) (h2 : '-' ∉ ds2) :
    splitDash (ds1 ++ '-' :: ds2) = [ds1, ds2] := by
  induction ds1 with
  | nil =>
    simp only [List.nil_append]
    unfold splitDash
    rw [if_pos rfl, splitDash_nodash ds2 h2]
  | cons c t ih =>
    have hc : c ≠ '-' := fun hh => h1 (by simp [hh])
    simp only [List.cons_append]
    unfold splitDash
    rw [if_neg hc, ih (fun hm => h1 (by simp [hm]))]

theorem not_dash_mem_of_pure (ds : List Char) (h : pureDigits ds) : '-' ∉ ds :=
  fun hm => absurd (h.2 '-' hm) (by decide)

theorem parse_pure (ds : List Char) (h : pureDigits ds)
    (hnz : digitsVal ds ≠ 0) (hle : digitsVal ds ≤ USIZEMAX) :
    parse ds = Except.ok (digitsVal ds) := by
  obtain ⟨c, t, rfl⟩ : ∃ c t, ds = c :: t := by
    cases ds with
    | nil => exact absurd rfl h.1
    | cons a b => exact ⟨a, b, rfl⟩
  have hc : isDigitChar c := h.2 c (by simp)
  have hall : (c :: t).all (fun x => decide (isDigitChar x)) = true := by
    rw [List.all_eq_true]
    intro x hx
    exact decide_eq_true (h.2 x hx)
  have h2 : rustParseDigits (c :: t) false = some (digitsVal (c :: t)) := by
    unfold rustParseDigits
    simp [hall, hle]
  have h1 : rustParseUsize (c :: t) = some (digitsVal (c :: t)) := by
    show (if c = '+' then rustParseDigits ((c :: t) : List Char).tail false
          else if c = '-' then rustParseDigits ((c :: t) : List Char).tail true
          else rustParseDigits (c :: t) false) = some (digitsVal (c :: t))
    rw [if_neg (digit_not_special c hc).2.1, if_neg (digit_not_special c hc).1, h2]
  unfold parse
  rw [h1]
  show (if digitsVal (c :: t) = 0 then Except.error (format_val_err (String.mk (c :: t)))
        else Except.ok (digitsVal (c :: t))) = Except.ok (digitsVal (c :: t))
  rw [if_neg hnz]

/-
Reduction lemmas for rangeFromParts at each fragment shape, conditional on
the outcome of parse on the fragments.
-/

theorem rangeFromParts_single_ok (t single : List Char) (v : Nat)
    (hp : parse single = Except.ok v) :
    rangeFromParts t [single] = Except.ok ⟨v - 1, v⟩ := by
  simp only [rangeFromParts]
  rw [hp]

theorem rangeFromParts_single_err (t single : List Char) (e : String)
    (hp : parse single = Except.error e) :
    rangeFromParts t [single] = Except.error e := by
  simp only [rangeFromParts]
  rw [hp]

theorem rangeFromParts_leading_ok (t hi : List Char) (v : Nat)
    (hp : parse hi = Except.ok v) :
    rangeFromParts t ([] :: hi :: []) = Except.ok ⟨0, v⟩ := by
  simp only [rangeFromParts]
  rw [hp]

theorem rangeFromParts_trailing_ok (t : List Char) (c1 : Char) (t1 : List Char)
    (v : Nat) (hp : parse (c1 :: t1) = Except.ok v) :
    rangeFromParts t ((c1 :: t1) :: ([] : List Char) :: []) =
      Except.ok ⟨v - 1, USIZEMAX⟩ := by
  simp only [rangeFromParts]
  rw [hp]

theorem rangeFromParts_two_vals (t : List Char) (c1 c2 : Char) (t1 t2 : List Char)
    (vl vh : Nat) (hl : parse (c1 :: t1) = Except.ok vl)
    (hh : parse (c2 :: t2) = Except.ok vh) :
    rangeFromParts t ((c1 :: t1) :: (c2 :: t2) :: []) =
      (if vl > vh then Except.error (format_range_err vl vh)
       else Except.ok ⟨vl - 1, vh⟩) := by
  simp only [rangeFromParts]
  rw [hl, hh]

theorem parsed_to_range_single (ds : List Char) (h : pureDigits ds)
    (hnz : digitsVal ds ≠ 0) (hle : digitsVal ds ≤ USIZEMAX) :
    parsed_to_range ds = Except.ok ⟨digitsVal ds - 1, digitsVal ds⟩ := by
  unfold parsed_to_range
  rw [splitDash_nodash ds (not_dash_mem_of_pure ds h)]
  exact rangeFromParts_single_ok ds ds (digitsVal ds) (parse_pure ds h hnz hle)

theorem parsed_to_range_leading (ds : List Char) (h : pureDigits ds)
    (hnz : digitsVal ds ≠ 0) (hle : digitsVal ds ≤ USIZEMAX) :
    parsed_to_range ('-' :: ds) = Except.ok ⟨0, digitsVal ds⟩ := by
  unfold parsed_to_range
  have hs := splitDash_two [] ds (by simp) (not_dash_mem_of_pure ds h)
  simp only [List.nil_append] at hs
  rw [hs]
  exact rangeFromParts_leading_ok _ ds (digitsVal ds) (parse_pure ds h hnz hle)

theorem parsed_to_range_trailing (ds : List Char) (h : pureDigits ds)
    (hnz : digitsVal ds ≠ 0) (hle : digitsVal ds ≤ USIZEMAX) :
    parsed_to_range (ds ++ ['-']) = Except.ok ⟨digitsVal ds - 1, USIZEMAX⟩ := by
  obtain ⟨c, t, rfl⟩ : ∃ c t, ds = c :: t := by
    cases ds with
    | nil => exact absurd rfl h.1
    | cons a b => exact ⟨a, b, rfl⟩
  unfold parsed_to_range
  rw [splitDash_two (c :: t) [] (not_dash_mem_of_pure _ h) (by simp)]
  exact rangeFromParts_trailing_ok _ c t (digitsVal (c :: t)) (parse_pure _ h hnz hle)

theorem parsed_to_range_two (ds1 ds2 : List Char) (h1 : pureDigits ds1)
    (h2 : pureDigits ds2) (hnz1 : digitsVal ds1 ≠ 0) (hnz2 : digitsVal ds2 ≠ 0)
    (hle1 : digitsVal ds1 ≤ USIZEMAX) (hle2 : digitsVal ds2 ≤ USIZEMAX)
    (horder : digitsVal ds1 ≤ digitsVal ds2) :
    parsed_to_range (ds1 ++ '-' :: ds2) =
      Except.ok ⟨digitsVal ds1 - 1, digitsVal ds2⟩ := by
  obtain ⟨c1, t1, rfl⟩ : ∃ c t, ds1 = c :: t := by
    cases ds1 with
    | nil => exact absurd rfl h1.1
    | cons a b => exact ⟨a, b, rfl⟩
  obtain ⟨c2, t2, rfl⟩ : ∃ c t, ds2 = c :: t := by
    cases ds2 with
    | nil => exact absurd rfl h2.1
    | cons a b => exact ⟨a, b, rfl⟩
  unfold parsed_to_range
  rw [splitDash_two _ _ (not_dash_mem_of_pure _ h1) (not_dash_mem_of_pure _ h2),
    rangeFromParts_two_vals _ c1 c2 t1 t2 _ _ (parse_pure _ h1 hnz1 hle1)
      (parse_pure _ h2 hnz2 hle2)]
  rw [if_neg (by omega)]

theorem parsed_to_range_two_err (ds1 ds2 : List Char) (h1 : pureDigits ds1)
    (h2 : pureDigits ds2) (hnz1 : digitsVal ds1 ≠ 0) (hnz2 : digitsVal ds2 ≠ 0)
    (hle1 : digitsVal ds1 ≤ USIZEMAX) (hle2 : digitsVal ds2 ≤ USIZEMAX)
    (horder : digitsVal ds2 < digitsVal ds1) :
    parsed_to_range (ds1 ++ '-' :: ds2) =
      Except.error (format_range_err (digitsVal ds1) (digitsVal ds2)) := by
  obtain ⟨c1, t1, rfl⟩ : ∃ c t, ds1 = c :: t := by
    cases ds1 with
    | nil => exact absurd rfl h1.1
    | cons a b => exact ⟨a, b, rfl⟩
  obtain ⟨c2, t2, rfl⟩ : ∃ c t, ds2 = c :: t := by
    cases ds2 with
    | nil => exact absurd rfl h2.1
    | cons a b => exact ⟨a, b, rfl⟩
  unfold parsed_to_range
  rw [splitDash_two _ _ (not_dash_mem_of_pure _ h1) (not_dash_mem_of_pure _ h2),
    rangeFromParts_two_vals _ c1 c2 t1 t2 _ _ (parse_pure _ h1 hnz1 hle1)
      (parse_pure _ h2 hnz2 hle2)]
  rw [if_pos (by omega)]

theorem parse_position_token_ok (l : List Char) (r : NRange)
    (h1 : range_input l = some (l, []))
    (h2 : parsed_to_range l = Except.ok r) :
    parse_position (String.mk l) = Except.ok [r] := by
  unfold parse_position
  show afterTokenize (sepList l) = _
  rw [sepList_single l h1]
  show List.mapM parsed_to_range [l] = _
  rw [List.mapM_cons, List.mapM_nil, h2]
  rfl

theorem parse_position_token_err (l : List Char) (e : String)
    (h1 : range_input l = some (l, []))
    (h2 : parsed_to_range l = Except.error e) :
    parse_position (String.mk l) = Except.error e := by
  unfold parse_position
  show afterTokenize (sepList l) = _
  rw [sepList_single l h1]
  show List.mapM parsed_to_range [l] = _
  rw [List.mapM_cons, List.mapM_nil, h2]
  rfl

/-
Lemmas for digit strings that contain underscore separators.
-/

theorem not_dash_mem_of_mixed (ds : List Char)
    (hmix : ∀ c ∈ ds, isDigitChar c ∨ c = '_') : '-' ∉ ds := by
  intro hm
  rcases hmix '-' hm with h | h
  · exact absurd h (by decide)
  · exact absurd h (by decide)

theorem range_input_mixed (ds : List Char) (hne : ds ≠ [])
    (hhead : ∀ c, ds.head? = some c → isDigitChar c)
    (hmix : ∀ c ∈ ds, isDigitChar c ∨ c = '_') :
    range_input ds = some (ds, []) := by
  obtain ⟨c, t, rfl⟩ : ∃ c t, ds = c :: t := by
    cases ds with
    | nil => exact absurd rfl hne
    | cons a b => exact ⟨a, b, rfl⟩
  have hc : isDigitChar c := hhead c rfl
  have hD : decimal (c :: t) = some (c :: t, []) := by
    have := decimal_eq (c :: t) [] hne hhead hmix (by simp)
    simpa using this
  have hdash : pDash (c :: t) = none := pDash_not_dash c t (digit_not_special c hc).1
  unfold range_input
  simp [pAlt, pSeq, hD, hdash, pDash_nil]

theorem parse_underscore (ds : List Char) (hne : ds ≠ [])
    (hhead : ∀ c, ds.head? = some c → isDigitChar c) (hus : '_' ∈ ds) :
    parse ds = Except.error (format_val_err (String.mk ds)) := by
  obtain ⟨c, t, rfl⟩ : ∃ c t, ds = c :: t := by
    cases ds with
    | nil => exact absurd rfl hne
    | cons a b => exact ⟨a, b, rfl⟩
  have hc : isDigitChar c := hhead c rfl
  have hall : (c :: t).all (fun x => decide (isDigitChar x)) = false := by
    rw [List.all_eq_false]
    exact ⟨'_', hus, by decide⟩
  have h2 : rustParseDigits (c :: t) false = none := by
    unfold rustParseDigits
    simp [hall]
  have h1 : rustParseUsize (c :: t) = none := by
    show (if c = '+' then rustParseDigits ((c :: t) : List Char).tail false
          else if c = '-' then rustParseDigits ((c :: t) : List Char).tail true
          else rustParseDigits (c :: t) false) = none
    rw [if_neg (digit_not_special c hc).2.1, if_neg (digit_not_special c hc).1, h2]
  unfold parse
  rw [h1]

theorem parsed_to_range_underscore (ds : List Char) (hne : ds ≠ [])
    (hhead : ∀ c, ds.head? = some c → isDigitChar c)
    (hmix : ∀ c ∈ ds, isDigitChar c ∨ c = '_') (hus : '_' ∈ ds) :
    parsed_to_range ds = Except.error (format_val_err (String.mk ds)) := by
  unfold parsed_to_range
  rw [splitDash_nodash ds (not_dash_mem_of_mixed ds hmix)]
  exact rangeFromParts_single_err ds ds _ (parse_underscore ds hne hhead hus)

theorem parse_position_rest_err (l : List Char) (h : (sepList l).1 ≠ []) :
    parse_position (String.mk l) =
      Except.error (format_val_err (String.mk (sepList l).1)) := by
  unfold parse_position
  show afterTokenize (sepList l) = _
  rcases hsep : sepList l with ⟨rest, toks⟩
  rw [hsep] at h
  simp only at h
  cases rest with
  | nil => exact absurd rfl h
  | cons a r => rfl

/-
Lemmas about the file loop of run.
-/

theorem processLines_ok (ext : String → String) (ls : List ReadLine)
    (h : ∀ l ∈ ls, isOkLine l) : (processLines ext ls).2 = none := by
  induction ls with
  | nil => rfl
  | cons l rest ih =>
    cases l with
    | ok s =>
      unfold processLines
      exact ih (fun x hx => h x (by simp [hx]))
    | err e => exact absurd (h (ReadLine.err e) (by simp)) (by simp [isOkLine])

theorem processLines_abort (ext : String → String) (pre : List String)
    (e : String) (post : List ReadLine) :
    processLines ext (pre.map ReadLine.ok ++ ReadLine.err e :: post) =
      (pre.map ext, some e) := by
  induction pre with
  | nil => rfl
  | cons s rest ih =>
    simp only [List.map_cons, List.cons_append]
    unfold processLines
    rw [ih]

theorem runWith_all_ok (fs : String → FileOutcome) (ext : String → String)
    (files : List String) (h : ∀ f ∈ files, noReadErr (fs f)) :
    runWith fs ext files =
      ((files.map fun f => fileStdout ext (fs f)).flatten,
       (files.map fun f => fileStderr f (fs f)).flatten, none) := by
  induction files with
  | nil => rfl
  | cons f rest ih =>
    have hrest := ih (fun x hx => h x (by simp [hx]))
    unfold runWith
    have hok := h f (by simp)
    cases hf : fs f with
    | missing e =>
      simp only []
      rw [hrest]
      simp [fileStdout, fileStderr, hf]
    | content ls =>
      rw [hf] at hok
      have hnone := processLines_ok ext ls hok
      simp only [hnone]
      rw [hrest]
      simp [fileStdout, fileStderr, hf]

theorem runWith_abort (fs : String → FileOutcome) (ext : String → String)
    (f : String) (rest : List String) (pre : List String) (e : String)
    (post : List ReadLine)
    (hf : fs f = FileOutcome.content (pre.map ReadLine.ok ++ ReadLine.err e :: post)) :
    runWith fs ext (f :: rest) = (pre.map ext, [], some e) := by
  unfold runWith
  simp only [hf, processLines_abort ext pre e post]

/-
Lemmas lifting the drop-take characterisation to the three extractors.
-/

theorem extract_chars_single (line : String) (s e : Nat) :
    extract_chars line [⟨s, e⟩] = String.mk ((line.data.drop s).take (e - s)) := by
  unfold extract_chars
  simp [selectIdx_eq_drop_take]

theorem extract_bytes_single (line : String) (s e : Nat) :
    extract_bytes line [⟨s, e⟩] =
      String.mk (utf8LossyDecode (((stringBytes line).drop s).take (e - s))) := by
  unfold extract_bytes
  simp [selectIdx_eq_drop_take]

theorem extract_fields_single (record : List String) (s e : Nat) :
    extract_fields record [⟨s, e⟩] = (record.drop s).take (e - s) := by
  unfold extract_fields
  simp [selectIdx_eq_drop_take]

theorem selectIdx_clip_any {α : Type} (l : List α) (cp : NRange) :
    selectIdx cp l = selectIdx ⟨cp.start, min cp.stop l.length⟩ l := by
  cases cp with
  | mk s e => exact selectIdx_clip l s e

theorem selects_clip {α : Type} (l : List α) (ps : List NRange) :
    (ps.map fun cp => selectIdx cp l) =
      ((ps.map fun cp => (⟨cp.start, min cp.stop l.length⟩ : NRange)).map
        fun cp => selectIdx cp l) := by
  rw [List.map_map]
  induction ps with
  | nil => rfl
  | cons cp ps ih =>
    simp only [List.map_cons, Function.comp_apply]
    rw [← ih, ← selectIdx_clip_any l cp]

/-
Claim theorems.
-/

/-- C1: every valid range-list token normalizes per the table: a single
position token with value N yields the 0-based half-open range
(N-1)..N, a leading-dash token yields 0..N, a trailing-dash token yields
(N-1)..unbounded, and a two-sided token M-N with M <= N (equal endpoints
included) yields (M-1)..N; parse of the comma-separated examples gives one
range per token in insertion order. -/
theorem c1_normalization_table :
    (∀ ds : List Char, pureDigits ds → digitsVal ds ≠ 0 →
      digitsVal ds ≤ USIZEMAX →
      parse_position (String.mk ds) =
        Except.ok [⟨digitsVal ds - 1, digitsVal ds⟩]) ∧
    (∀ ds : List Char, pureDigits ds → digitsVal ds ≠ 0 →
      digitsVal ds ≤ USIZEMAX →
      parse_position (String.mk ('-' :: ds)) = Except.ok [⟨0, digitsVal ds⟩]) ∧
    (∀ ds : List Char, pureDigits ds → digitsVal ds ≠ 0 →
      digitsVal ds ≤ USIZEMAX →
      parse_position (String.mk (ds ++ ['-'])) =
        Except.ok [⟨digitsVal ds - 1, USIZEMAX⟩]) ∧
    (∀ ds1 ds2 : List Char, pureDigits ds1 → pureDigits ds2 →
      digitsVal ds1 ≠ 0 → digitsVal ds2 ≠ 0 →
      digitsVal ds1 ≤ USIZEMAX → digitsVal ds2 ≤ USIZEMAX →
      digitsVal ds1 ≤ digitsVal ds2 →
      parse_position (String.mk (ds1 ++ '-' :: ds2)) =
        Except.ok [⟨digitsVal ds1 - 1, digitsVal ds2⟩]) ∧
    parse_position (r"1,3") = Except.ok [⟨0, 1⟩, ⟨2, 3⟩] ∧
    parse_position (r"1-3") = Except.ok [⟨0, 3⟩] ∧
    parse_position (r"15,19-20") = Except.ok [⟨14, 15⟩, ⟨18, 20⟩] := by
  refine ⟨?_, ?_, ?_, ?_, by decide, by decide, by decide⟩
  · intro ds h hnz hle
    exact parse_position_token_ok ds _ (range_input_pure ds h)
      (parsed_to_range_single ds h hnz hle)
  · intro ds h hnz hle
    exact parse_position_token_ok _ _ (range_input_leading ds h)
      (parsed_to_range_leading ds h hnz hle)
  · intro ds h hnz hle
    exact parse_position_token_ok _ _ (range_input_trailing ds h)
      (parsed_to_range_trailing ds h hnz hle)
  · intro ds1 ds2 h1 h2 hnz1 hnz2 hle1 hle2 ho
    exact parse_position_token_ok _ _ (range_input_two ds1 ds2 h1 h2)
      (parsed_to_range_two ds1 ds2 h1 h2 hnz1 hnz2 hle1 hle2 ho)

/-- C1 witness: the table instantiated at the concrete tokens 7, -7, 7-
and 2-4. -/
theorem c1_witness :
    parse_position (String.mk ['7']) = Except.ok [⟨6, 7⟩] ∧
    parse_position (String.mk ['-', '7']) = Except.ok [⟨0, 7⟩] ∧
    parse_position (String.mk ['7', '-']) = Except.ok [⟨6, USIZEMAX⟩] ∧
    parse_position (String.mk ['2', '-', '4']) = Except.ok [⟨1, 4⟩] := by
  have hv7 : digitsVal ['7'] = 7 := by decide
  have hv2 : digitsVal ['2'] = 2 := by decide
  have hv4 : digitsVal ['4'] = 4 := by decide
  refine ⟨?_, ?_, ?_, ?_⟩
  · have h := c1_normalization_table.1 ['7'] (by decide) (by decide) (by decide)
    rw [hv7] at h
    exact h
  · have h := c1_normalization_table.2.1 ['7'] (by decide) (by decide) (by decide)
    rw [hv7] at h
    exact h
  · have h := c1_normalization_table.2.2.1 ['7'] (by decide) (by decide) (by decide)
    rw [hv7] at h
    exact h
  · have h := c1_normalization_table.2.2.2.1 ['2'] ['4'] (by decide) (by decide)
      (by decide) (by decide) (by decide) (by decide) (by decide)
    rw [hv2, hv4] at h
    exact h

/-- C2 counterexample: the position list 1_0, whose digit sequence has an
interior underscore, does NOT parse successfully: the tokenizer grammar
accepts it but the numeric conversion rejects the underscore, so parsing
fails with an illegal-list-value error carrying the token. -/
theorem c2_counterexample :
    parse_position (r"1_0") = Except.error (format_val_err (r"1_0")) := by
  decide

/-- C2 amended: a digit sequence with interior underscores is accepted by
the token grammar (the tokenizer consumes it as one token with no rest),
but numeric conversion fails, so parse_position errors with
InvalidListValue citing the full token. -/
theorem c2_amended_underscores :
    (∀ ds : List Char, ds ≠ [] →
      (∀ c, ds.head? = some c → isDigitChar c) →
      (∀ c ∈ ds, isDigitChar c ∨ c = '_') → '_' ∈ ds →
      sepList ds = ([], [ds]) ∧
      parse_position (String.mk ds) =
        Except.error (format_val_err (String.mk ds))) ∧
    parse_position (r"1_0") = Except.error (format_val_err (r"1_0")) := by
  refine ⟨?_, by decide⟩
  intro ds hne hhead hmix hus
  refine ⟨sepList_single ds (range_input_mixed ds hne hhead hmix), ?_⟩
  exact parse_position_token_err _ _ (range_input_mixed ds hne hhead hmix)
    (parsed_to_range_underscore ds hne hhead hmix hus)

/-- C2 witness: the amended statement instantiated at the token 1_0. -/
theorem c2_witness :
    sepList ['1', '_', '0'] = ([], [['1', '_', '0']]) ∧
    parse_position (String.mk ['1', '_', '0']) =
      Except.error (format_val_err (String.mk ['1', '_', '0'])) :=
  c2_amended_underscores.1 ['1', '_', '0'] (by decide) (by decide) (by decide)
    (by decide)

/-- C4: parsing the empty range-list string succeeds with an empty
PositionList. -/
theorem c4_empty_ok : parse_position (r"") = Except.ok [] := by
  decide

/-- C5: sub-tokens failing grammar or numeric validation produce an
illegal-list-value error carrying exactly the offending sub-token: 0 and
0-1 cite 0, +1 cites +1, 1-a cites a alone; in general a non-empty
unparsed rest after tokenization is cited verbatim. -/
theorem c5_invalid_list_value :
    parse_position (r"0") = Except.error (format_val_err (r"0")) ∧
    parse_position (r"0-1") = Except.error (format_val_err (r"0")) ∧
    parse_position (r"+1") = Except.error (format_val_err (r"+1")) ∧
    parse_position (r"1-a") = Except.error (format_val_err (r"a")) ∧
    (∀ l : List Char, (sepList l).1 ≠ [] →
      parse_position (String.mk l) =
        Except.error (format_val_err (String.mk (sepList l).1))) :=
  ⟨by decide, by decide, by decide, by decide, parse_position_rest_err⟩

/-- C5 witness: the unparsed-rest clause instantiated at the input +1,
whose rest is the whole input. -/
theorem c5_witness :
    parse_position (String.mk ['+', '1']) =
      Except.error (format_val_err (r"+1")) := by
  have h := c5_invalid_list_value.2.2.2.2 ['+', '1'] (by decide)
  rw [h]
  decide

/-- C6: a two-sided token whose first endpoint exceeds the second fails
with the range-order error stating both endpoints 1-based as given; in
particular 2-1 fails citing 2 and 1. -/
theorem c6_range_order :
    (∀ ds1 ds2 : List Char, pureDigits ds1 → pureDigits ds2 →
      digitsVal ds1 ≠ 0 → digitsVal ds2 ≠ 0 →
      digitsVal ds1 ≤ USIZEMAX → digitsVal ds2 ≤ USIZEMAX →
      digitsVal ds2 < digitsVal ds1 →
      parse_position (String.mk (ds1 ++ '-' :: ds2)) =
        Except.error (format_range_err (digitsVal ds1) (digitsVal ds2))) ∧
    parse_position (r"2-1") = Except.error (format_range_err 2 1) := by
  refine ⟨?_, by decide⟩
  intro ds1 ds2 h1 h2 hnz1 hnz2 hle1 hle2 ho
  exact parse_position_token_err _ _ (range_input_two ds1 ds2 h1 h2)
    (parsed_to_range_two_err ds1 ds2 h1 h2 hnz1 hnz2 hle1 hle2 ho)

/-- C6 witness: the general clause instantiated at the token 3-2. -/
theorem c6_witness :
    parse_position (String.mk ['3', '-', '2']) =
      Except.error (format_range_err 3 2) := by
  have h := c6_range_order.1 ['3'] ['2'] (by decide) (by decide) (by decide)
    (by decide) (by decide) (by decide) (by decide)
  have hv3 : digitsVal ['3'] = 3 := by decide
  have hv2 : digitsVal ['2'] = 2 := by decide
  rw [hv3, hv2] at h
  exact h

/-- C3 counterexample: a read error inside the first of two files aborts
the whole run: the run result carries the abort error, nothing reaches
the error stream, and the second file contributes no output, so a
per-file read error is not skipped. -/
theorem c3_counterexample :
    runWith fsDemo (fun s => extract_bytes s [⟨0, 1⟩]) [r"f1", r"f2"] =
      ([r"a"], [], some (r"boom")) := by
  decide

/-- C3 amended: an open failure (missing file) is reported to the error
stream as name-colon-error and processing continues with the next file,
and when no read error occurs the run never aborts; but a read error
while iterating an opened file propagates and aborts the whole run at
that line. -/
theorem c3_amended_file_errors :
    (∀ (fs : String → FileOutcome) (ext : String → String) (files : List String),
      (∀ f ∈ files, noReadErr (fs f)) →
      runWith fs ext files =
        ((files.map fun f => fileStdout ext (fs f)).flatten,
         (files.map fun f => fileStderr f (fs f)).flatten, none)) ∧
    (∀ (fs : String → FileOutcome) (ext : String → String) (f : String)
      (rest pre : List String) (e : String) (post : List ReadLine),
      fs f = FileOutcome.content (pre.map ReadLine.ok ++ ReadLine.err e :: post) →
      runWith fs ext (f :: rest) = (pre.map ext, [], some e)) :=
  ⟨runWith_all_ok, runWith_abort⟩

/-- C3 witness: the amended statement at concrete inputs: a run over a
missing file and a healthy file skips the bad file and logs it, and a run
whose first file has a read error after one good line aborts with it. -/
theorem c3_witness :
    runWith (fun f => if f = r"bad" then FileOutcome.missing (r"gone")
        else FileOutcome.content [ReadLine.ok (r"x")]) (fun s => s)
      [r"bad", r"good"] = ([r"x"], [r"bad: gone"], none) ∧
    runWith fsDemo (fun s => s) [r"f1", r"f2"] = ([r"a"], [], some (r"boom")) := by
  constructor
  · have h := c3_amended_file_errors.1
      (fun f => if f = r"bad" then FileOutcome.missing (r"gone")
        else FileOutcome.content [ReadLine.ok (r"x")]) (fun s => s)
      [r"bad", r"good"] (by decide)
    rw [h]
    decide
  · have h := c3_amended_file_errors.2 fsDemo (fun s => s) (r"f1") [r"f2"]
      [r"a"] (r"boom") [] (by decide)
    rw [h]
    decide

/-- C7: an open-ended token ds- parses to the range from its value minus
one to the usize sentinel, and with that range each extractor selects
everything from the start position to the natural end of the line or
record, for every line whose length fits in usize: no fixed ceiling
truncates the selection. -/
theorem c7_unbounded_upper :
    (∀ ds : List Char, pureDigits ds → digitsVal ds ≠ 0 →
      digitsVal ds ≤ USIZEMAX →
      parse_position (String.mk (ds ++ ['-'])) =
        Except.ok [⟨digitsVal ds - 1, USIZEMAX⟩]) ∧
    (∀ (line : String) (s : Nat), line.data.length ≤ USIZEMAX →
      extract_chars line [⟨s, USIZEMAX⟩] = String.mk (line.data.drop s)) ∧
    (∀ (line : String) (s : Nat), (stringBytes line).length ≤ USIZEMAX →
      extract_bytes line [⟨s, USIZEMAX⟩] =
        String.mk (utf8LossyDecode ((stringBytes line).drop s))) ∧
    (∀ (record : List String) (s : Nat), record.length ≤ USIZEMAX →
      extract_fields record [⟨s, USIZEMAX⟩] = record.drop s) := by
  refine ⟨?_, ?_, ?_, ?_⟩
  · intro ds h hnz hle
    exact parse_position_token_ok _ _ (range_input_trailing ds h)
      (parsed_to_range_trailing ds h hnz hle)
  · intro line s hlen
    rw [extract_chars_single, take_of_len_le _ _ (by simp only [List.length_drop]; omega)]
  · intro line s hlen
    rw [extract_bytes_single, take_of_len_le _ _ (by simp only [List.length_drop]; omega)]
  · intro record s hlen
    rw [extract_fields_single, take_of_len_le _ _ (by simp only [List.length_drop]; omega)]

/-- C7 witness: the token 2- parses to the open-ended range, and that
range extracts the character, byte, and field suffixes of concrete
inputs. -/
theorem c7_witness :
    parse_position (String.mk ['2', '-']) = Except.ok [⟨1, USIZEMAX⟩] ∧
    extract_chars (r"abcd") [⟨1, USIZEMAX⟩] = String.mk ((r"abcd").data.drop 1) ∧
    extract_bytes (r"abcd") [⟨1, USIZEMAX⟩] =
      String.mk (utf8LossyDecode ((stringBytes (r"abcd")).drop 1)) ∧
    extract_fields [r"u", r"v", r"w"] [⟨1, USIZEMAX⟩] = [r"u", r"v", r"w"].drop 1 := by
  refine ⟨?_, ?_, ?_, ?_⟩
  · have h := c7_unbounded_upper.1 ['2'] (by decide) (by decide) (by decide)
    have hv : digitsVal ['2'] = 2 := by decide
    rw [hv] at h
    exact h
  · exact c7_unbounded_upper.2.1 (r"abcd") 1 (by decide)
  · exact c7_unbounded_upper.2.2.1 (r"abcd") 1 (by decide)
  · exact c7_unbounded_upper.2.2.2 [r"u", r"v", r"w"] 1 (by decide)

/-- C8: character extraction indexes decoded characters, not bytes: the
first range 0..1 always selects exactly the first decoded character of
the line, and on the line with a two-byte first character it yields that
whole character. -/
theorem c8_chars_by_scalar :
    (∀ line : String, extract_chars line [⟨0, 1⟩] = String.mk (line.data.take 1)) ∧
    extract_chars (r"ábc") [⟨0, 1⟩] = (r"á") := by
  constructor
  · intro line
    rw [extract_chars_single]
    simp
  · decide

/-- C8 witness: the general clause instantiated at the concrete line. -/
theorem c8_witness :
    extract_chars (r"ábc") [⟨0, 1⟩] = String.mk ((r"ábc").data.take 1) :=
  c8_chars_by_scalar.1 (r"ábc")

set_option maxRecDepth 4000 in
/-- C9: byte extraction converts the selected bytes with lossy decoding:
a range splitting the two-byte first character of the line yields exactly
one replacement character, and more generally any single byte at or above
128 decodes lossily to the replacement character rather than an error. -/
theorem c9_lossy_bytes :
    extract_bytes (r"ábc") [⟨0, 1⟩] = String.mk [replacementChar] ∧
    (∀ b : Nat, b < 256 → 128 ≤ b → utf8LossyDecode [b] = [replacementChar]) := by
  refine ⟨by decide, ?_⟩
  decide

/-- C9 witness: the general clause at the byte 195, the lead byte of the
split two-byte character. -/
theorem c9_witness : utf8LossyDecode [195] = [replacementChar] :=
  c9_lossy_bytes.2 195 (by decide) (by decide)

/-- C10: all three extractors are total in the input length: clipping
every range at the number of units leaves the output unchanged (indices
past the end contribute nothing), and a range starting at or past the end
selects nothing. -/
theorem c10_extraction_total :
    (∀ (line : String) (ps : List NRange),
      extract_chars line ps =
        extract_chars line
          (ps.map fun cp => ⟨cp.start, min cp.stop line.data.length⟩)) ∧
    (∀ (record : List String) (ps : List NRange),
      extract_fields record ps =
        extract_fields record
          (ps.map fun cp => ⟨cp.start, min cp.stop record.length⟩)) ∧
    (∀ (line : String) (ps : List NRange),
      extract_bytes line ps =
        extract_bytes line
          (ps.map fun cp => ⟨cp.start, min cp.stop (stringBytes line).length⟩)) ∧
    (∀ (line : String) (s e : Nat), line.data.length ≤ s →
      extract_chars line [⟨s, e⟩] = String.mk []) ∧
    (∀ (record : List String) (s e : Nat), record.length ≤ s →
      extract_fields record [⟨s, e⟩] = []) := by
  refine ⟨?_, ?_, ?_, ?_, ?_⟩
  · intro line ps
    unfold extract_chars
    rw [← selects_clip]
  · intro record ps
    unfold extract_fields
    rw [← selects_clip]
  · intro line ps
    unfold extract_bytes
    rw [← selects_clip]
  · intro line s e hlen
    rw [extract_chars_single, List.drop_eq_nil_of_le hlen, List.take_nil]
  · intro record s e hlen
    rw [extract_fields_single, List.drop_eq_nil_of_le hlen, List.take_nil]

/-- C10 witness: clipping concrete over-long ranges changes nothing, and
ranges past the end select nothing, on concrete inputs. -/
theorem c10_witness :
    extract_chars (r"abc") [⟨1, 99⟩] =
      extract_chars (r"abc")
        (([⟨1, 99⟩] : List NRange).map fun cp =>
          ⟨cp.start, min cp.stop (r"abc").data.length⟩) ∧
    extract_chars (r"abc") [⟨7, 9⟩] = String.mk [] ∧
    extract_fields [r"u", r"v"] [⟨5, 8⟩] = [] := by
  refine ⟨c10_extraction_total.1 (r"abc") ([⟨1, 99⟩] : List NRange), ?_, ?_⟩
  · exact c10_extraction_total.2.2.2.1 (r"abc") 7 9 (by decide)
  · exact c10_extraction_total.2.2.2.2 [r"u", r"v"] 5 8 (by decide)
